import Mathlib

/-!
Verification development for the `cmdtree` crate.

The definitions below are a shallow embedding of the crate's source:
`src/lib.rs` (data model, `Commander::structure`), `src/parse.rs`
(`Commander::parse_line`, `parse_word`, `write_help`), `src/builder.rs`
(`Builder`, `check_names`, the `BuilderChain` impls) and
`src/completion.rs` (`create_tree_completion_items`, `tree_completions`,
`word_break_start`).

Rust strings are modelled as Lean `String` (lists of characters); the byte
indices used by the Rust code coincide with character indices on the ASCII
data the crate manipulates.  Rust `to_lowercase` is modelled with
`Char.toLower`, which agrees with it on ASCII.  The output sink (`writer`)
is modelled as the list of messages written during a call; ANSI colour
styling (the `colourise` flag) only decorates those messages and is not
modelled, as it does not affect resolution logic or state.  `Rc`/`Arc`
sharing of immutable nodes is modelled by plain values.
-/

namespace Cmdtree

/-- Embedding of `line.replace("\n", "").replace("\r", "")` from
`Commander::parse_line` (src/parse.rs line 55): removing every occurrence
of a single-character pattern is filtering that character out. -/
def replace_crlf (line : String) : String :=
  String.mk (line.toList.filter fun c => !(c == '\n' || c == '\r'))

/-- Embedding of Rust `str::trim` on character lists: drop whitespace from
both ends. -/
def trim_str (s : String) : String :=
  String.mk (((s.toList.dropWhile Char.isWhitespace).reverse.dropWhile
    Char.isWhitespace).reverse)

/-- Worker for `split_char`: accumulates the current word (reversed). -/
def split_go (delim : Char) : List Char → List Char → List String
  | [], acc => [String.mk acc.reverse]
  | c :: rest, acc =>
    if c == delim then String.mk acc.reverse :: split_go delim rest []
    else split_go delim rest (c :: acc)

/-- Embedding of Rust `str::split(delim)` for a character delimiter: keeps
empty segments, and the empty string yields `[""]`. -/
def split_char (delim : Char) (s : String) : List String :=
  split_go delim s.toList []

/-- Embedding of Rust `str::to_lowercase`, which on the ASCII names and
reserved words of this crate is a character-wise lowering. -/
def to_lowercase (s : String) : String :=
  String.mk (s.toList.map Char.toLower)

/-- Embedding of Rust `str::starts_with`: the argument is a leading part
of the receiver. -/
def starts_with (s pre : String) : Bool :=
  pre.toList.isPrefixOf s.toList

/-- An action: a leaf invocable (src/lib.rs `struct Action`).  The
`closure` field models the boxed callback; `parse_line` invokes it with
the words following the action word (src/parse.rs line 93). -/
structure Action (R : Type) where
  name : String
  help : String
  closure : List String → R

/-- A tree node (src/lib.rs `struct SubClass`): name, help text, child
classes and actions in insertion order. -/
inductive SubClass (R : Type) where
  | mk (name : String) (help : String) (classes : List (SubClass R))
      (actions : List (Action R))

/-- Accessor for the `name` field of `SubClass`. -/
def SubClass.name {R : Type} : SubClass R → String
  | .mk n _ _ _ => n

/-- Accessor for the `help` field of `SubClass`. -/
def SubClass.help {R : Type} : SubClass R → String
  | .mk _ h _ _ => h

/-- Accessor for the `classes` field of `SubClass`. -/
def SubClass.classes {R : Type} : SubClass R → List (SubClass R)
  | .mk _ _ cs _ => cs

/-- Accessor for the `actions` field of `SubClass`. -/
def SubClass.actions {R : Type} : SubClass R → List (Action R)
  | .mk _ _ _ as => as

/-- Embedding of `SubClass::with_name` (src/lib.rs lines 263-271): the
name is lowercased at construction, children start empty. -/
def SubClass.with_name {R : Type} (name help_msg : String) : SubClass R :=
  .mk (to_lowercase name) help_msg [] []

/-- Appends a child class (the `parent.classes.push(..)` of
`Builder::end_class`, src/builder.rs line 91). -/
def SubClass.pushClass {R : Type} : SubClass R → SubClass R → SubClass R
  | .mk n h cs as, child => .mk n h (cs ++ [child]) as

/-- Appends an action (the `self.current.actions.push(..)` of
`Builder::add_action`, src/builder.rs line 110). -/
def SubClass.pushAction {R : Type} : SubClass R → Action R → SubClass R
  | .mk n h cs as, a => .mk n h cs (as ++ [a])

mutual

/-- Number of nodes of a subtree; used as fuel for the explicit-stack
traversal of `Commander::structure`. -/
def SubClass.size {R : Type} : SubClass R → Nat
  | .mk _ _ cs _ => 1 + sizeClasses cs

/-- Total node count of a list of subtrees. -/
def sizeClasses {R : Type} : List (SubClass R) → Nat
  | [] => 0
  | c :: cs => c.size + sizeClasses cs

end

/-- A built command tree with cursor state (src/lib.rs `struct
Commander`): shared root, current position, and the dot-joined path. -/
structure Commander (R : Type) where
  root : SubClass R
  current : SubClass R
  path : String

/-- Resolution of a single word (src/parse.rs `enum WordResult`). -/
inductive WordResult (R : Type) where
  | Help (sc : SubClass R)
  | Cancel
  | Exit
  | Class (sc : SubClass R)
  | Action (a : Action R)
  | Unrecognized

/-- Result of `Commander::parse_line` (src/parse.rs `enum LineResult`). -/
inductive LineResult (R : Type) where
  | Help
  | Cancel
  | Exit
  | Class
  | Action (r : R)
  | Unrecognized
  deriving DecidableEq

/-- Embedding of `parse_word` (src/parse.rs lines 121-137): lowercase the
word, match the reserved words first, then the first child class with that
name, then the first action, otherwise unrecognized. -/
def parse_word {R : Type} (subclass : SubClass R) (word : String) :
    WordResult R :=
  let lwr := to_lowercase word
  if lwr = "help" then .Help subclass
  else if lwr = "cancel" then .Cancel
  else if lwr = "c" then .Cancel
  else if lwr = "exit" then .Exit
  else
    match subclass.classes.find? (fun c => c.name == lwr) with
    | some c => .Class c
    | none =>
      match subclass.actions.find? (fun a => a.name == lwr) with
      | some a => .Action a
      | none => .Unrecognized

/-- Embedding of `write_help` (src/parse.rs lines 178-200) as the list of
lines written to the writer. -/
def write_help {R : Type} (sc : SubClass R) : List String :=
  ["help -- prints the help messages",
   "cancel | c -- returns to the root class",
   "exit -- sends the exit signal to end the interactive loop"]
  ++ (if sc.classes.length > 0 then
        "Classes:" ::
          sc.classes.map (fun c => "\t" ++ c.name ++ " -- " ++ c.help)
      else [])
  ++ (if sc.actions.length > 0 then
        "Actions:" ::
          sc.actions.map (fun a => "\t" ++ a.name ++ " -- " ++ a.help)
      else [])

/-- The diagnostic written by the `Unrecognized` branch of `parse_line`
(src/parse.rs lines 99-103). -/
def unrecognized_msg (word : String) : String :=
  "'" ++ word ++ "' does not match any keywords, classes, or actions"

/-- Embedding of the word loop of `Commander::parse_line` (src/parse.rs
lines 65-117).  `start_class`/`start_path` are the entry state captured at
the start of the call; the result is the commander after the call, the
messages written to the writer, and the `LineResult`. -/
def parse_line_loop {R : Type} (cmdr : Commander R)
    (start_class : SubClass R) (start_path : String) :
    List String → Commander R × List String × LineResult R
  | [] => (cmdr, [], .Class)
  | word :: rest =>
    match parse_word cmdr.current word with
    | .Help sc =>
      ({ cmdr with current := start_class, path := start_path },
        write_help sc, .Help)
    | .Cancel =>
      ({ cmdr with current := cmdr.root, path := cmdr.root.name },
        [], .Cancel)
    | .Exit => (cmdr, [], .Exit)
    | .Class sc =>
      parse_line_loop
        { cmdr with current := sc, path := cmdr.path ++ "." ++ sc.name }
        start_class start_path rest
    | .Action a =>
      ({ cmdr with current := start_class, path := start_path },
        [], .Action (a.closure rest))
    | .Unrecognized =>
      ({ cmdr with current := start_class, path := start_path },
        [unrecognized_msg word], .Unrecognized)

/-- The line pre-processing of `parse_line` (src/parse.rs lines 55-56):
strip newlines and carriage returns, trim, split on single spaces. -/
def process_line (line : String) : List String :=
  split_char ' ' (trim_str (replace_crlf line))

/-- Embedding of `Commander::parse_line` (src/parse.rs lines 49-118). -/
def parse_line {R : Type} (cmdr : Commander R) (line : String) :
    Commander R × List String × LineResult R :=
  parse_line_loop cmdr cmdr.current cmdr.path (process_line line)

/-- Error variants when building a `Commander` (src/builder.rs
`enum BuildError`). -/
inductive BuildError where
  | NameExistsAsClass
  | NameExistsAsAction
  | NoParent
  deriving DecidableEq

/-- The builder (src/builder.rs `struct Builder`): a stack of open parent
scopes (most recent first, modelling `Vec` push/pop at the end) and the
currently open scope. -/
structure Builder (R : Type) where
  parents : List (SubClass R)
  current : SubClass R

/-- Embedding of `Builder::new` (src/builder.rs lines 72-77). -/
def Builder.new {R : Type} (root_name : String) : Builder R :=
  ⟨[], SubClass.with_name root_name "base class of commander tree"⟩

/-- Embedding of `check_names` (src/builder.rs lines 156-171): a reserved
word or an action-name collision yields `NameExistsAsAction`, a class-name
collision yields `NameExistsAsClass`. -/
def check_names {R : Type} (name : String) (subclass : SubClass R) :
    Except BuildError Unit :=
  let lwr := to_lowercase name
  if lwr == "help" || lwr == "cancel" || lwr == "c" || lwr == "exit"
      || subclass.actions.any (fun x => x.name == lwr) then
    .error .NameExistsAsAction
  else if subclass.classes.any (fun x => x.name == lwr) then
    .error .NameExistsAsClass
  else
    .ok ()

/-- Embedding of `Builder::begin_class` (src/builder.rs lines 81-87). -/
def Builder.begin_class {R : Type} (b : Builder R)
    (name : String) (help_msg : String) : Except BuildError (Builder R) :=
  match check_names name b.current with
  | .error e => .error e
  | .ok _ => .ok ⟨b.current :: b.parents, SubClass.with_name name help_msg⟩

/-- Embedding of `Builder::end_class` (src/builder.rs lines 89-94). -/
def Builder.end_class {R : Type} (b : Builder R) :
    Except BuildError (Builder R) :=
  match b.parents with
  | [] => .error .NoParent
  | parent :: rest => .ok ⟨rest, parent.pushClass b.current⟩

/-- Embedding of `Builder::add_action` (src/builder.rs lines 104-117):
the action name is lowercased when stored. -/
def Builder.add_action {R : Type} (b : Builder R) (name : String)
    (help_msg : String) (closure : List String → R) :
    Except BuildError (Builder R) :=
  match check_names name b.current with
  | .error e => .error e
  | .ok _ =>
    .ok ⟨b.parents, b.current.pushAction ⟨to_lowercase name, help_msg, closure⟩⟩

/-- The `while !parents.is_empty() { end_class }` loop of `Builder::root`
(src/builder.rs lines 96-102), written as structural recursion on the
parent stack: each step pops a parent and attaches the current scope to it
as `end_class` does. -/
def Builder.rootFold {R : Type} : List (SubClass R) → SubClass R → SubClass R
  | [], cur => cur
  | parent :: rest, cur => Builder.rootFold rest (parent.pushClass cur)

/-- Embedding of `Builder::root` (src/builder.rs lines 96-102): closes
every open scope; never fails. -/
def Builder.root {R : Type} (b : Builder R) : Except BuildError (Builder R) :=
  .ok ⟨[], Builder.rootFold b.parents b.current⟩

/-- Embedding of `Builder::into_commander` (src/builder.rs lines 119-127):
closes out to the root and positions the commander there. -/
def Builder.into_commander {R : Type} (b : Builder R) :
    Except BuildError (Commander R) :=
  match b.root with
  | .error e => .error e
  | .ok rb => .ok ⟨rb.current, rb.current, rb.current.name⟩

/-- Embedding of `BuilderChain::begin_class` for `BuilderResult`
(src/builder.rs lines 131-133): `self?.begin_class(..)`. -/
def chain_begin_class {R : Type} (r : Except BuildError (Builder R))
    (name : String) (help_msg : String) : Except BuildError (Builder R) :=
  match r with
  | .error e => .error e
  | .ok b => b.begin_class name help_msg

/-- Embedding of `BuilderChain::end_class` for `BuilderResult`
(src/builder.rs lines 135-137). -/
def chain_end_class {R : Type} (r : Except BuildError (Builder R)) :
    Except BuildError (Builder R) :=
  match r with
  | .error e => .error e
  | .ok b => b.end_class

/-- Embedding of `BuilderChain::add_action` for `BuilderResult`
(src/builder.rs lines 143-149). -/
def chain_add_action {R : Type} (r : Except BuildError (Builder R))
    (name : String) (help_msg : String) (closure : List String → R) :
    Except BuildError (Builder R) :=
  match r with
  | .error e => .error e
  | .ok b => b.add_action name help_msg closure

/-- Embedding of `BuilderChain::into_commander` for `BuilderResult`
(src/builder.rs lines 151-153). -/
def chain_into_commander {R : Type} (r : Except BuildError (Builder R)) :
    Except BuildError (Commander R) :=
  match r with
  | .error e => .error e
  | .ok b => b.into_commander

/-- A command type (src/lib.rs `enum ItemType`). -/
inductive ItemType where
  | Class
  | Action
  deriving DecidableEq

/-- An item in the command tree (src/lib.rs `struct StructureInfo`).
Rust compares and orders these by `path` alone. -/
structure StructureInfo where
  path : String
  itemtype : ItemType
  help_msg : String
  deriving DecidableEq

/-- Lexicographic strict order on character lists, the embedding of
Rust's `Ord` for `String` (byte-wise comparison coincides with
character-wise comparison on ASCII data). -/
def chars_lt : List Char → List Char → Bool
  | [], [] => false
  | [], _ :: _ => true
  | _ :: _, [] => false
  | a :: as, b :: bs =>
    if a < b then true else if b < a then false else chars_lt as bs

/-- Strict order on strings via `chars_lt`; see `str_lt_iff_lt` for the
agreement with the standard order on `String`. -/
def str_lt (a b : String) : Bool :=
  chars_lt a.toList b.toList

/-- Embedding of `BTreeSet::insert` for `StructureInfo`, whose `Ord` is on
`path`: keep the list sorted by path, and keep the existing element when
an equal path is already present. -/
def insertInfo (s : StructureInfo) : List StructureInfo → List StructureInfo
  | [] => [s]
  | x :: xs =>
    if str_lt s.path x.path then s :: x :: xs
    else if s.path == x.path then x :: xs
    else x :: insertInfo s xs

/-- Total node count of a traversal stack; an upper bound on the number of
iterations the explicit-stack loop of `Commander::structure` performs. -/
def stack_size {R : Type} (stack : List (String × SubClass R)) : Nat :=
  sizeClasses (stack.map Prod.snd)

/-- The `while let Some(item) = stack.pop()` loop of `Commander::structure`
(src/lib.rs lines 228-248).  The stack's head is its top (Rust pops from
the `Vec`'s end); pushing the popped node's classes in order leaves the
last one on top, hence the reversed prepend.  The `Nat` argument is fuel;
`Commander.structure_set` supplies enough for the loop to run to
completion (see `structLoop_fuel_irrelevant`). -/
def structLoop {R : Type} :
    Nat → List (String × SubClass R) → List StructureInfo → List StructureInfo
  | _, [], set => set
  | 0, _ :: _, set => set
  | fuel + 1, (parent_path, parent) :: rest, set =>
    structLoop fuel
      ((parent.classes.map
        (fun c => (parent_path ++ "." ++ c.name, c))).reverse ++ rest)
      (insertInfo ⟨parent_path, .Class, parent.help⟩
        (parent.actions.foldl
          (fun s a =>
            insertInfo ⟨parent_path ++ ".." ++ a.name, .Action, a.help⟩ s)
          set))

/-- Embedding of `Commander::structure` (src/lib.rs lines 211-251),
returning the sorted set as a sorted list: insert an `..action` entry for
each action of the chosen origin, seed the stack with the origin's
classes, then run the traversal loop.  (Named `structure_set` because
`structure` is a Lean keyword.) -/
def Commander.structure_set {R : Type} (cmdr : Commander R)
    (from_root : Bool) : List StructureInfo :=
  let r := if from_root then cmdr.root else cmdr.current
  let set := r.actions.foldl
    (fun s a => insertInfo ⟨".." ++ a.name, .Action, a.help⟩ s) []
  let stack := (r.classes.map (fun c => (c.name, c))).reverse
  structLoop (stack_size stack) stack set

/-- A completion item (src/completion.rs `struct CompletionInfo`). -/
structure CompletionInfo where
  completestr : String
  itemtype : ItemType
  help_msg : String
  deriving DecidableEq

/-- The fold of `create_tree_completion_items` (src/completion.rs lines
115-124) that joins path segments with single spaces. -/
def join_spaced (words : List String) : String :=
  words.foldl (fun s x => if s.length != 0 then s ++ " " ++ x else s ++ x) ""

/-- Embedding of `create_tree_completion_items` (src/completion.rs lines
103-137): split each structure path on `.`, drop empty segments, join with
spaces, and drop items that end up empty. -/
def create_tree_completion_items {R : Type} (cmdr : Commander R) :
    List CompletionInfo :=
  (cmdr.structure_set false).filterMap fun info =>
    let completestr :=
      join_spaced ((split_char '.' info.path).filter (fun x => !(x.isEmpty)))
    if completestr.isEmpty then none
    else some ⟨completestr, info.itemtype, info.help_msg⟩

/-- The backwards scan of `word_break_start` (src/completion.rs lines
223-228) over the reversed indexed characters of the string. -/
def word_break_go (word_break_ch : List Char) :
    List (Nat × Char) → Nat → Nat
  | [], start => start
  | (idx, ch) :: rest, start =>
    if word_break_ch.contains ch then start
    else word_break_go word_break_ch rest idx

/-- Embedding of `word_break_start` (src/completion.rs lines 220-231):
the start position of the last word of `s`, scanning from the end until a
break character is hit.  Indices are character indices, which agree with
the Rust byte indices on ASCII data. -/
def word_break_start (s : String) (word_break_ch : List Char) : Nat :=
  word_break_go word_break_ch s.toList.enum.reverse s.toList.length

/-- Embedding of `tree_completions` (src/completion.rs lines 201-217):
keep the items whose candidate string starts with `line`, and pair each
with the suffix of the candidate from the start of `line`'s last word. -/
def tree_completions (line : String) (items : List CompletionInfo) :
    List (String × CompletionInfo) :=
  (items.filter fun x => starts_with x.completestr line).map fun x =>
    let word_idx := word_break_start line [' ']
    (String.mk (x.completestr.toList.drop word_idx), x)

/-- The tree of the spec's Scenario 1: root `base`, class `one` containing
class `two` containing action `three`. -/
def demo_root : SubClass Unit :=
  .mk "base" "base class of commander tree"
    [.mk "one" "" [.mk "two" "" [] [⟨"three", "", fun _ => ()⟩]] []] []

/-- The Scenario 1 commander, freshly built (see `demo_builder_builds`). -/
def demo_cmdr : Commander Unit :=
  ⟨demo_root, demo_root, "base"⟩

/-- The builder chain that constructs `demo_cmdr`. -/
def demo_builder : Except BuildError (Builder Unit) :=
  chain_add_action
    (chain_begin_class
      (chain_begin_class (Except.ok (Builder.new "base")) "one" "")
      "two" "")
    "three" "" (fun _ => ())

/-- A tree containing a class whose name is the empty string, which
`check_names` accepts. -/
def empty_name_root : SubClass Unit :=
  .mk "base" "base class of commander tree" [.mk "" "" [] []] []

/-- A built commander owning a class named `""` (see
`empty_name_builder_builds`). -/
def empty_name_cmdr : Commander Unit :=
  ⟨empty_name_root, empty_name_root, "base"⟩

/-- A builder with one still-open scope (`begin_class "one"` not yet
closed), used to exercise finalization from a non-root scope. -/
def demo_open_builder : Builder Unit :=
  ⟨[SubClass.with_name "base" "base class of commander tree"],
    SubClass.with_name "one" ""⟩

/-- The builder state reached by `demo_builder` just before
`into_commander`: scopes `base` and `one` still open, current scope `two`
holding action `three`. -/
def demo_final_builder : Builder Unit :=
  ⟨[.mk "one" "" [] [], .mk "base" "base class of commander tree" [] []],
    .mk "two" "" [] [⟨"three", "", fun _ => ()⟩]⟩

theorem demo_builder_builds :
    chain_into_commander demo_builder = Except.ok demo_cmdr := rfl

theorem demo_final_builder_builds :
    demo_final_builder.into_commander = Except.ok demo_cmdr := rfl

theorem chars_lt_iff_lt :
    ∀ (l₁ l₂ : List Char), chars_lt l₁ l₂ = true ↔ l₁ < l₂ := by
  intro l₁
  induction l₁ with
  | nil =>
    intro l₂
    cases l₂ with
    | nil =>
      simp only [chars_lt, Bool.false_eq_true, false_iff]
      intro hc
      cases hc
    | cons b bs =>
      simp only [chars_lt, true_iff]
      exact List.nil_lt_cons b bs
  | cons a as ih =>
    intro l₂
    cases l₂ with
    | nil =>
      simp only [chars_lt, Bool.false_eq_true, false_iff]
      intro hc
      cases hc
    | cons b bs =>
      simp only [chars_lt]
      rcases lt_trichotomy a b with h | h | h
      · simp only [if_pos h, true_iff]
        exact List.Lex.rel h
      · subst h
        simp only [if_neg (lt_irrefl a), ih bs]
        constructor
        · intro hlt
          exact List.Lex.cons hlt
        · intro hc
          cases hc with
          | cons h => exact h
          | rel h => exact absurd h (lt_irrefl a)
      · simp only [if_neg (asymm h), if_pos h, Bool.false_eq_true, false_iff]
        intro hc
        cases hc with
        | cons h' => exact absurd h (lt_irrefl a)
        | rel h' => exact absurd h' (asymm h)

theorem str_lt_iff_lt (a b : String) : str_lt a b = true ↔ a < b := by
  rw [String.lt_iff_toList_lt]
  exact chars_lt_iff_lt _ _

/-- C4: for every builder, `into_commander` succeeds with a commander
positioned at the root whose path is the root's name, and each manual
`end_class` step commutes with finalization, so manually closing all
scopes first yields the same commander. -/
theorem C4_into_commander_closes_scopes {R : Type} :
    (∀ b : Builder R, ∃ c : Commander R,
      b.into_commander = Except.ok c ∧ c.current = c.root ∧
        c.path = c.root.name) ∧
    (∀ (b : Builder R) (parent : SubClass R) (rest : List (SubClass R)),
      b.parents = parent :: rest →
      ∃ b' : Builder R, b.end_class = Except.ok b' ∧
        b'.into_commander = b.into_commander) := by
  constructor
  · intro b
    exact ⟨⟨Builder.rootFold b.parents b.current,
      Builder.rootFold b.parents b.current,
      (Builder.rootFold b.parents b.current).name⟩, rfl, rfl, rfl⟩
  · intro b parent rest h
    refine ⟨⟨rest, parent.pushClass b.current⟩, ?_, ?_⟩
    · simp [Builder.end_class, h]
    · simp [Builder.into_commander, Builder.root, h, Builder.rootFold]

theorem C4_witness :
    (∃ c : Commander Unit,
      demo_open_builder.into_commander = Except.ok c ∧ c.current = c.root ∧
        c.path = c.root.name) ∧
    (∃ b' : Builder Unit, demo_open_builder.end_class = Except.ok b' ∧
      b'.into_commander = demo_open_builder.into_commander) :=
  ⟨C4_into_commander_closes_scopes.1 demo_open_builder,
    C4_into_commander_closes_scopes.2 demo_open_builder
      (SubClass.with_name "base" "base class of commander tree") [] rfl⟩

/-- C10: a reserved-word name makes both `begin_class` and `add_action`
fail with `NameExistsAsAction` specifically, because `check_names` folds
the reserved words into the same branch as action-name collisions. -/
theorem C10_reserved_error_variant {R : Type} :
    ∀ (b : Builder R) (name help_msg : String) (closure : List String → R),
    (to_lowercase name = "help" ∨ to_lowercase name = "cancel" ∨
      to_lowercase name = "c" ∨ to_lowercase name = "exit") →
    b.begin_class name help_msg = Except.error BuildError.NameExistsAsAction ∧
    b.add_action name help_msg closure =
      Except.error BuildError.NameExistsAsAction := by
  intro b name help_msg closure hres
  have hchk : check_names name b.current =
      Except.error BuildError.NameExistsAsAction := by
    unfold check_names
    rcases hres with h1 | h1 | h1 | h1 <;> simp [h1]
  constructor <;> simp [Builder.begin_class, Builder.add_action, hchk]

theorem C10_witness :
    (Builder.new (R := Unit) "base").begin_class "HELP" "" =
      Except.error BuildError.NameExistsAsAction ∧
    (Builder.new (R := Unit) "base").add_action "HELP" "" (fun _ => ()) =
      Except.error BuildError.NameExistsAsAction :=
  C10_reserved_error_variant (Builder.new "base") "HELP" "" (fun _ => ())
    (Or.inl (by decide))

theorem check_names_error_iff {R : Type} (name : String) (sc : SubClass R) :
    (∃ e, check_names name sc = Except.error e) ↔
    (to_lowercase name = "help" ∨ to_lowercase name = "cancel" ∨
      to_lowercase name = "c" ∨ to_lowercase name = "exit" ∨
      sc.actions.any (fun x => x.name == to_lowercase name) = true ∨
      sc.classes.any (fun x => x.name == to_lowercase name) = true) := by
  unfold check_names
  by_cases h1 : (to_lowercase name == "help" || to_lowercase name == "cancel"
      || to_lowercase name == "c" || to_lowercase name == "exit"
      || sc.actions.any (fun x => x.name == to_lowercase name)) = true
  · simp only [if_pos h1]
    simp only [Bool.or_eq_true, beq_iff_eq] at h1
    constructor
    · intro _
      tauto
    · intro _
      exact ⟨BuildError.NameExistsAsAction, rfl⟩
  · simp only [if_neg h1]
    simp only [Bool.or_eq_true, beq_iff_eq, not_or] at h1
    obtain ⟨⟨⟨⟨hh, hc⟩, hcc⟩, he⟩, ha⟩ := h1
    by_cases h2 : sc.classes.any (fun x => x.name == to_lowercase name) = true
    · simp only [if_pos h2]
      constructor
      · intro _
        tauto
      · intro _
        exact ⟨BuildError.NameExistsAsClass, rfl⟩
    · simp only [if_neg h2]
      constructor
      · rintro ⟨e, he'⟩
        cases he'
      · intro hcol
        rcases hcol with h | h | h | h | h | h <;> simp_all

/-- C6: `begin_class` and `add_action` fail exactly when the lowercased
name is a reserved word or matches a sibling action or class name; a
failure is one of the two name-collision errors and produces no builder
state, and every chained operation on a failed result returns the same
error unchanged. -/
theorem C6_name_collision {R : Type} :
    ∀ (b : Builder R) (name help_msg : String) (closure : List String → R),
    (((∃ e, b.begin_class name help_msg = Except.error e) ↔
      (to_lowercase name = "help" ∨ to_lowercase name = "cancel" ∨
        to_lowercase name = "c" ∨ to_lowercase name = "exit" ∨
        b.current.actions.any (fun x => x.name == to_lowercase name) = true ∨
        b.current.classes.any (fun x => x.name == to_lowercase name) = true)) ∧
    ((∃ e, b.add_action name help_msg closure = Except.error e) ↔
      (to_lowercase name = "help" ∨ to_lowercase name = "cancel" ∨
        to_lowercase name = "c" ∨ to_lowercase name = "exit" ∨
        b.current.actions.any (fun x => x.name == to_lowercase name) = true ∨
        b.current.classes.any (fun x => x.name == to_lowercase name) = true))) ∧
    ((∀ e, b.begin_class name help_msg = Except.error e →
      e = BuildError.NameExistsAsAction ∨ e = BuildError.NameExistsAsClass) ∧
    (∀ e, b.add_action name help_msg closure = Except.error e →
      e = BuildError.NameExistsAsAction ∨ e = BuildError.NameExistsAsClass)) ∧
    (∀ e : BuildError,
      chain_begin_class (R := R) (Except.error e) name help_msg =
        Except.error e ∧
      chain_add_action (R := R) (Except.error e) name help_msg closure =
        Except.error e ∧
      chain_end_class (R := R) (Except.error e) = Except.error e ∧
      chain_into_commander (R := R) (Except.error e) = Except.error e) := by
  intro b name help_msg closure
  have hbeg : (∃ e, b.begin_class name help_msg = Except.error e) ↔
      (∃ e, check_names name b.current = Except.error e) := by
    unfold Builder.begin_class
    cases h : check_names name b.current with
    | error e => simp [h]
    | ok u => simp [h]
  have hact : (∃ e, b.add_action name help_msg closure = Except.error e) ↔
      (∃ e, check_names name b.current = Except.error e) := by
    unfold Builder.add_action
    cases h : check_names name b.current with
    | error e => simp [h]
    | ok u => simp [h]
  have hvariant : ∀ e, check_names name b.current = Except.error e →
      e = BuildError.NameExistsAsAction ∨ e = BuildError.NameExistsAsClass := by
    intro e he
    unfold check_names at he
    dsimp only at he
    split_ifs at he with h1 h2 <;> cases he <;> tauto
  refine ⟨⟨hbeg.trans (check_names_error_iff name b.current),
    hact.trans (check_names_error_iff name b.current)⟩, ⟨?_, ?_⟩, ?_⟩
  · intro e he
    unfold Builder.begin_class at he
    cases h : check_names name b.current with
    | error e' =>
      rw [h] at he
      cases he
      exact hvariant _ h
    | ok u => rw [h] at he; cases he
  · intro e he
    unfold Builder.add_action at he
    cases h : check_names name b.current with
    | error e' =>
      rw [h] at he
      cases he
      exact hvariant _ h
    | ok u => rw [h] at he; cases he
  · intro e
    exact ⟨rfl, rfl, rfl, rfl⟩

theorem parse_line_loop_restores {R : Type} :
    ∀ (rest : List String) (cmdr : Commander R) (s : SubClass R) (p : String),
    ((parse_line_loop cmdr s p rest).2.2 = LineResult.Help ∨
      (∃ v, (parse_line_loop cmdr s p rest).2.2 = LineResult.Action v) ∨
      (parse_line_loop cmdr s p rest).2.2 = LineResult.Unrecognized) →
    (parse_line_loop cmdr s p rest).1.current = s ∧
    (parse_line_loop cmdr s p rest).1.path = p := by
  intro rest
  induction rest with
  | nil =>
    intro cmdr s p h
    simp only [parse_line_loop] at h
    rcases h with h | ⟨v, h⟩ | h <;> cases h
  | cons w rest ih =>
    intro cmdr s p h
    simp only [parse_line_loop] at h ⊢
    cases hw : parse_word cmdr.current w <;> simp only [hw] at h ⊢
    · constructor <;> trivial
    · rcases h with h | ⟨v, h⟩ | h <;> cases h
    · rcases h with h | ⟨v, h⟩ | h <;> cases h
    · exact ih _ s p h
    · constructor <;> trivial
    · constructor <;> trivial

/-- C2: every `parse_line` call that resolves to Help, Action or
Unrecognized leaves the commander's cursor and path at the entry state
captured at the start of the call, even if child-class words earlier in
the line advanced the working position. -/
theorem C2_restores_entry_state {R : Type} :
    ∀ (cmdr : Commander R) (line : String),
    ((parse_line cmdr line).2.2 = LineResult.Help ∨
      (∃ v, (parse_line cmdr line).2.2 = LineResult.Action v) ∨
      (parse_line cmdr line).2.2 = LineResult.Unrecognized) →
    (parse_line cmdr line).1.current = cmdr.current ∧
    (parse_line cmdr line).1.path = cmdr.path := by
  intro cmdr line h
  exact parse_line_loop_restores (process_line line) cmdr cmdr.current
    cmdr.path h

theorem C2_witness :
    (parse_line demo_cmdr "one two three").1.current = demo_cmdr.current ∧
    (parse_line demo_cmdr "one two three").1.path = demo_cmdr.path :=
  C2_restores_entry_state demo_cmdr "one two three"
    (Or.inr (Or.inl ⟨(), rfl⟩))

/-- C1 counterexample: on the Scenario 1 commander, the line
`"one two exit"` resolves to Exit, but the path after the call is
`"base.one.two"`, not the entry value `"base"`: the Exit branch performs
no rollback of the navigation done by the preceding class words. -/
theorem C1_cex_exit_keeps_navigation :
    (parse_line demo_cmdr "one two exit").2.2 = LineResult.Exit ∧
    demo_cmdr.path = "base" ∧
    (parse_line demo_cmdr "one two exit").1.path = "base.one.two" ∧
    ¬ (parse_line demo_cmdr "one two exit").1.path = demo_cmdr.path := by
  refine ⟨rfl, rfl, rfl, ?_⟩
  intro h
  simp only [demo_cmdr] at h
  exact absurd (show ("base.one.two" : String) = "base" from h) (by decide)

/-- C1 (amended): a word resolving to Exit ends the call immediately with
`Exit`, leaving the cursor and path exactly as they stand at that moment;
hence the state is unchanged when `exit` is the first word of the line,
but it keeps the navigation performed by preceding child-class words. -/
theorem C1_exit_leaves_working_state {R : Type} :
    (∀ (cmdr : Commander R) (s : SubClass R) (p w : String)
      (rest : List String), parse_word cmdr.current w = WordResult.Exit →
      parse_line_loop cmdr s p (w :: rest) = (cmdr, [], LineResult.Exit)) ∧
    (∀ (cmdr : Commander R) (line w : String) (rest : List String),
      process_line line = w :: rest →
      parse_word cmdr.current w = WordResult.Exit →
      parse_line cmdr line = (cmdr, [], LineResult.Exit)) := by
  constructor
  · intro cmdr s p w rest hw
    simp only [parse_line_loop, hw]
  · intro cmdr line w rest hl hw
    simp only [parse_line, hl, parse_line_loop, hw]

theorem C1_witness :
    parse_line demo_cmdr "exit" = (demo_cmdr, [], LineResult.Exit) :=
  C1_exit_leaves_working_state.2 demo_cmdr "exit" "exit" [] rfl rfl

/-- C7 counterexample: the builder accepts a class named `""`
(`check_names` only rejects reserved words and sibling collisions), and
on the resulting commander an empty line resolves to that class, so
`parse_line ""` returns `Class`, not `Unrecognized`. -/
theorem C7_cex_empty_name_class :
    chain_into_commander
      (chain_begin_class (Except.ok (Builder.new (R := Unit) "base")) "" "") =
      Except.ok empty_name_cmdr ∧
    (parse_line empty_name_cmdr "").2.2 = LineResult.Class ∧
    ¬ (parse_line empty_name_cmdr "").2.2 = LineResult.Unrecognized ∧
    (parse_line empty_name_cmdr "").1.path = "base." :=
  ⟨rfl, rfl, by decide, rfl⟩

/-- C7 (amended): a word that matches nothing at the working position
(not a reserved word, no class, no action) makes `parse_line` return
`Unrecognized`, roll the cursor and path back to the entry state, and
write a diagnostic containing the literal word; in particular, on every
built commander whose current position has no class or action named `""`
(the case for every tree built with nonempty names), an empty line — an
empty-string token, as also produced by consecutive spaces — degrades to
`Unrecognized` this way, and never panics (`parse_line` is total). -/
theorem C7_unrecognized_diagnostic {R : Type} :
    (∀ (cmdr : Commander R) (s : SubClass R) (p w : String)
      (rest : List String),
      parse_word cmdr.current w = WordResult.Unrecognized →
      parse_line_loop cmdr s p (w :: rest) =
        ({ cmdr with current := s, path := p }, [unrecognized_msg w],
          LineResult.Unrecognized) ∧
      unrecognized_msg w =
        "'" ++ w ++ "' does not match any keywords, classes, or actions") ∧
    (∀ cmdr : Commander R,
      (cmdr.current.classes.all fun c => !(c.name == "")) = true →
      (cmdr.current.actions.all fun a => !(a.name == "")) = true →
      parse_line cmdr "" =
        (cmdr, [unrecognized_msg ""], LineResult.Unrecognized)) := by
  constructor
  · intro cmdr s p w rest hw
    constructor
    · simp only [parse_line_loop, hw]
    · rfl
  · intro cmdr hc ha
    have hw : parse_word cmdr.current "" = WordResult.Unrecognized := by
      simp only [List.all_eq_true, Bool.not_eq_eq_eq_not, Bool.not_true,
        beq_eq_false_iff_ne] at hc ha
      unfold parse_word
      have h1 : to_lowercase "" = "" := rfl
      rw [h1]
      have hfc : cmdr.current.classes.find? (fun x => x.name == "") = none :=
        List.find?_eq_none.mpr (by
          intro x hx
          simp only [beq_iff_eq]
          exact hc x hx)
      have hfa : cmdr.current.actions.find? (fun x => x.name == "") = none :=
        List.find?_eq_none.mpr (by
          intro x hx
          simp only [beq_iff_eq]
          exact ha x hx)
      simp [hfc, hfa]
    have hline : process_line "" = [""] := rfl
    simp only [parse_line, hline]
    simp only [parse_line_loop, hw]

theorem C6_witness :
    (∃ e, (⟨[], demo_root⟩ : Builder Unit).begin_class "ONE" "" =
      Except.error e) ∧
    (∃ e, (⟨[], demo_root⟩ : Builder Unit).add_action "exit" ""
      (fun _ => ()) = Except.error e) :=
  ⟨((C6_name_collision ⟨[], demo_root⟩ "ONE" "" (fun _ => ())).1.1).mpr
      (by decide),
    ((C6_name_collision ⟨[], demo_root⟩ "exit" "" (fun _ => ())).1.2).mpr
      (Or.inr (Or.inr (Or.inr (Or.inl (by decide)))))⟩

end Cmdtree

namespace Cmdtree

/-- The child class `two` of the Scenario 1 tree. -/
def demo_two : SubClass Unit :=
  .mk "two" "" [] [⟨"three", "", fun _ => ()⟩]

/-- The child class `one` of the Scenario 1 tree. -/
def demo_one : SubClass Unit :=
  .mk "one" "" [demo_two] []

/-- C5: single-word resolution lowercases the word and resolves with the
precedence reserved word, then first child class with that (lowercased)
name, then first action, otherwise Unrecognized; a reserved word never
resolves to a class or an action. -/
theorem C5_parse_word_precedence {R : Type} :
    ∀ (sc : SubClass R) (w : String),
    ((∀ sc' : SubClass R, parse_word sc w = WordResult.Help sc' ↔
      (sc' = sc ∧ to_lowercase w = "help")) ∧
    (parse_word sc w = WordResult.Cancel ↔
      (to_lowercase w = "cancel" ∨ to_lowercase w = "c")) ∧
    (parse_word sc w = WordResult.Exit ↔ to_lowercase w = "exit")) ∧
    ((∀ c : SubClass R, parse_word sc w = WordResult.Class c ↔
      (¬ to_lowercase w = "help" ∧ ¬ to_lowercase w = "cancel" ∧
        ¬ to_lowercase w = "c" ∧ ¬ to_lowercase w = "exit" ∧
        sc.classes.find? (fun x => x.name == to_lowercase w) = some c)) ∧
    (∀ a : Action R, parse_word sc w = WordResult.Action a ↔
      (¬ to_lowercase w = "help" ∧ ¬ to_lowercase w = "cancel" ∧
        ¬ to_lowercase w = "c" ∧ ¬ to_lowercase w = "exit" ∧
        sc.classes.find? (fun x => x.name == to_lowercase w) = none ∧
        sc.actions.find? (fun x => x.name == to_lowercase w) = some a)) ∧
    (parse_word sc w = WordResult.Unrecognized ↔
      (¬ to_lowercase w = "help" ∧ ¬ to_lowercase w = "cancel" ∧
        ¬ to_lowercase w = "c" ∧ ¬ to_lowercase w = "exit" ∧
        sc.classes.find? (fun x => x.name == to_lowercase w) = none ∧
        sc.actions.find? (fun x => x.name == to_lowercase w) = none))) := by
  intro sc w
  unfold parse_word
  dsimp only
  by_cases h1 : to_lowercase w = "help"
  · simp [h1, eq_comm]
  · by_cases h2 : to_lowercase w = "cancel"
    · simp [h1, h2]
    · by_cases h3 : to_lowercase w = "c"
      · simp [h1, h2, h3]
      · by_cases h4 : to_lowercase w = "exit"
        · simp [h1, h2, h3, h4]
        · cases hfc : sc.classes.find? (fun x => x.name == to_lowercase w) with
          | some c' => simp [h1, h2, h3, h4, hfc, eq_comm]
          | none =>
            cases hfa : sc.actions.find?
                (fun x => x.name == to_lowercase w) with
            | some a' => simp [h1, h2, h3, h4, hfc, hfa, eq_comm]
            | none => simp [h1, h2, h3, h4, hfc, hfa]

theorem C5_witness :
    parse_word demo_one "TWO" = WordResult.Class demo_two ∧
    parse_word demo_one "EXIT" = WordResult.Exit :=
  ⟨((C5_parse_word_precedence demo_one "TWO").2.1 demo_two).mpr
      ⟨by decide, by decide, by decide, by decide, rfl⟩,
    (C5_parse_word_precedence demo_one "EXIT").1.2.2.mpr (by decide)⟩

end Cmdtree

namespace Cmdtree

/-- Witnesses that `b` is reachable from `a` by descending through child
classes, with `p` the dot-joined names from `a` down to `b`. -/
inductive PathTo {R : Type} : SubClass R → SubClass R → String → Prop
  | refl (sc : SubClass R) : PathTo sc sc sc.name
  | step {a b : SubClass R} {p : String} (c : SubClass R) :
      PathTo a b p → c ∈ b.classes → PathTo a c (p ++ "." ++ c.name)

/-- The cursor invariant of a commander: the stored path is the dot-joined
chain of class names from the root down to the current position. -/
def path_invariant {R : Type} (cmdr : Commander R) : Prop :=
  PathTo cmdr.root cmdr.current cmdr.path

theorem size_le_sizeClasses {R : Type} {c : SubClass R} :
    ∀ {cs : List (SubClass R)}, c ∈ cs → c.size ≤ sizeClasses cs := by
  intro cs
  induction cs with
  | nil => intro h; cases h
  | cons x xs ih =>
    intro h
    simp only [sizeClasses]
    rcases List.mem_cons.mp h with h | h
    · subst h
      exact Nat.le_add_right _ _
    · exact (ih h).trans (Nat.le_add_left _ _)

theorem size_lt_of_mem_classes {R : Type} {c b : SubClass R}
    (h : c ∈ b.classes) : c.size < b.size := by
  cases b with
  | mk n hm cs as =>
    simp only [SubClass.classes] at h
    simp only [SubClass.size]
    have := size_le_sizeClasses h
    omega

theorem PathTo.size_le {R : Type} {a b : SubClass R} {p : String}
    (h : PathTo a b p) : b.size ≤ a.size := by
  induction h with
  | refl => exact Nat.le_refl _
  | step c hpath hmem ih =>
    exact Nat.le_of_lt (Nat.lt_of_lt_of_le (size_lt_of_mem_classes hmem) ih)

theorem PathTo.name_length_le {R : Type} {a b : SubClass R} {p : String}
    (h : PathTo a b p) : a.name.length ≤ p.length := by
  induction h with
  | refl => exact Nat.le_refl _
  | step c hpath hmem ih =>
    rw [String.length_append, String.length_append]
    omega

theorem PathTo.eq_root_iff {R : Type} {a b : SubClass R} {p : String}
    (h : PathTo a b p) : b = a ↔ p = a.name := by
  constructor
  · intro hb
    cases h with
    | refl => rfl
    | step c hpath hmem =>
      subst hb
      exact absurd (Nat.lt_of_lt_of_le (size_lt_of_mem_classes hmem)
        hpath.size_le) (Nat.lt_irrefl _)
  · intro hp
    cases h with
    | refl => rfl
    | step c hpath hmem =>
      have hlen := congrArg String.length hp
      rw [String.length_append, String.length_append] at hlen
      have hle := hpath.name_length_le
      have : ("." : String).length = 1 := rfl
      omega

theorem parse_word_class_mem {R : Type} {sc c : SubClass R} {w : String}
    (h : parse_word sc w = WordResult.Class c) : c ∈ sc.classes := by
  unfold parse_word at h
  dsimp only at h
  split_ifs at h
  cases hfc : sc.classes.find? (fun x => x.name == to_lowercase w) with
  | some c' =>
    rw [hfc] at h
    cases h
    exact List.mem_of_find?_eq_some hfc
  | none =>
    rw [hfc] at h
    cases hfa : sc.actions.find? (fun x => x.name == to_lowercase w) with
    | some a' => rw [hfa] at h; cases h
    | none => rw [hfa] at h; cases h

theorem parse_line_loop_invariant {R : Type} :
    ∀ (rest : List String) (cmdr : Commander R) (s : SubClass R)
      (p : String),
    PathTo cmdr.root cmdr.current cmdr.path → PathTo cmdr.root s p →
    (parse_line_loop cmdr s p rest).1.root = cmdr.root ∧
    PathTo cmdr.root (parse_line_loop cmdr s p rest).1.current
      (parse_line_loop cmdr s p rest).1.path := by
  intro rest
  induction rest with
  | nil =>
    intro cmdr s p hcur hentry
    exact ⟨rfl, hcur⟩
  | cons w rest ih =>
    intro cmdr s p hcur hentry
    simp only [parse_line_loop]
    cases hw : parse_word cmdr.current w <;> dsimp only
    · exact ⟨rfl, hentry⟩
    · exact ⟨rfl, PathTo.refl _⟩
    · exact ⟨rfl, hcur⟩
    · rename_i sc
      exact ih { cmdr with current := sc, path := (cmdr.path ++ "." ++ sc.name) } s p (PathTo.step sc hcur (parse_word_class_mem hw)) hentry
    · exact ⟨rfl, hentry⟩
    · exact ⟨rfl, hentry⟩

/-- C3: the path invariant — the stored path equals the dot-joined chain
of names from the root to the current position — holds for every
commander produced by `into_commander`, is preserved by every
`parse_line` call, and under it the current position is the root exactly
when the path is the root's name alone. -/
theorem C3_path_invariant {R : Type} :
    (∀ (b : Builder R) (c : Commander R),
      b.into_commander = Except.ok c → path_invariant c) ∧
    (∀ (cmdr : Commander R) (line : String), path_invariant cmdr →
      path_invariant (parse_line cmdr line).1) ∧
    (∀ cmdr : Commander R, path_invariant cmdr →
      (cmdr.current = cmdr.root ↔ cmdr.path = cmdr.root.name)) := by
  refine ⟨?_, ?_, ?_⟩
  · intro b c h
    unfold Builder.into_commander Builder.root at h
    dsimp only at h
    cases h
    exact PathTo.refl _
  · intro cmdr line hinv
    have h := parse_line_loop_invariant (process_line line) cmdr
      cmdr.current cmdr.path hinv hinv
    unfold path_invariant parse_line
    rw [h.1]
    exact h.2
  · intro cmdr hinv
    exact hinv.eq_root_iff

theorem C3_witness :
    path_invariant demo_cmdr ∧
    (demo_cmdr.current = demo_cmdr.root ↔
      demo_cmdr.path = demo_cmdr.root.name) ∧
    path_invariant (parse_line demo_cmdr "one two").1 := by
  have h1 : path_invariant demo_cmdr :=
    C3_path_invariant.1 demo_final_builder demo_cmdr rfl
  exact ⟨h1, C3_path_invariant.2.2 demo_cmdr h1,
    C3_path_invariant.2.1 demo_cmdr "one two" h1⟩

end Cmdtree

namespace Cmdtree

theorem string_mk_toList (s : String) : String.mk s.toList = s := by
  cases s
  rfl

theorem starts_with_empty (s : String) : starts_with s "" = true := by
  unfold starts_with
  cases s.toList <;> rfl

theorem mem_insertInfo {s y : StructureInfo} :
    ∀ {l : List StructureInfo}, y ∈ insertInfo s l → y = s ∨ y ∈ l := by
  intro l
  induction l with
  | nil =>
    intro h
    simp only [insertInfo, List.mem_singleton] at h
    exact Or.inl h
  | cons x xs ih =>
    intro h
    simp only [insertInfo] at h
    by_cases h1 : str_lt s.path x.path = true
    · rw [if_pos h1] at h
      rcases List.mem_cons.mp h with h | h
      · exact Or.inl h
      · exact Or.inr h
    · rw [if_neg h1] at h
      by_cases h2 : (s.path == x.path) = true
      · rw [if_pos h2] at h
        exact Or.inr h
      · rw [if_neg h2] at h
        rcases List.mem_cons.mp h with h | h
        · exact Or.inr (List.mem_cons.mpr (Or.inl h))
        · rcases ih h with h | h
          · exact Or.inl h
          · exact Or.inr (List.mem_cons.mpr (Or.inr h))

theorem insertInfo_sorted (s : StructureInfo) :
    ∀ {l : List StructureInfo},
    List.Pairwise (fun a b => a.path < b.path) l →
    List.Pairwise (fun a b => a.path < b.path) (insertInfo s l) := by
  intro l
  induction l with
  | nil =>
    intro _
    simp [insertInfo]
  | cons x xs ih =>
    intro h
    rw [List.pairwise_cons] at h
    obtain ⟨hx, hxs⟩ := h
    simp only [insertInfo]
    by_cases h1 : str_lt s.path x.path = true
    · rw [if_pos h1]
      have hs : s.path < x.path := (str_lt_iff_lt _ _).mp h1
      rw [List.pairwise_cons]
      refine ⟨?_, List.pairwise_cons.mpr ⟨hx, hxs⟩⟩
      intro y hy
      rcases List.mem_cons.mp hy with h | h
      · rw [h]
        exact hs
      · exact hs.trans (hx y h)
    · rw [if_neg h1]
      by_cases h2 : (s.path == x.path) = true
      · rw [if_pos h2]
        exact List.pairwise_cons.mpr ⟨hx, hxs⟩
      · rw [if_neg h2]
        have hlt : x.path < s.path := by
          have hne : ¬ s.path = x.path := by simpa using h2
          have hnlt : ¬ s.path < x.path := fun hc =>
            h1 ((str_lt_iff_lt _ _).mpr hc)
          rcases lt_trichotomy s.path x.path with h | h | h
          · exact absurd h hnlt
          · exact absurd h hne
          · exact h
        rw [List.pairwise_cons]
        refine ⟨?_, ih hxs⟩
        intro y hy
        rcases mem_insertInfo hy with h | h
        · rw [h]
          exact hlt
        · exact hx y h

theorem foldl_insertInfo_sorted {α : Type} (g : α → StructureInfo) :
    ∀ (xs : List α) (set : List StructureInfo),
    List.Pairwise (fun a b => a.path < b.path) set →
    List.Pairwise (fun a b => a.path < b.path)
      (xs.foldl (fun s a => insertInfo (g a) s) set) := by
  intro xs
  induction xs with
  | nil => intro set h; exact h
  | cons x xs ih =>
    intro set h
    exact ih _ (insertInfo_sorted (g x) h)

theorem structLoop_sorted {R : Type} :
    ∀ (fuel : Nat) (stack : List (String × SubClass R))
      (set : List StructureInfo),
    List.Pairwise (fun a b => a.path < b.path) set →
    List.Pairwise (fun a b => a.path < b.path) (structLoop fuel stack set) := by
  intro fuel
  induction fuel with
  | zero =>
    intro stack set h
    cases stack with
    | nil => simp only [structLoop]; exact h
    | cons top rest => simp only [structLoop]; exact h
  | succ n ih =>
    intro stack set h
    cases stack with
    | nil => simp only [structLoop]; exact h
    | cons top rest =>
      obtain ⟨pp, parent⟩ := top
      simp only [structLoop]
      exact ih _ _ (insertInfo_sorted _
        (foldl_insertInfo_sorted
          (fun a => ⟨pp ++ ".." ++ a.name, ItemType.Action, a.help⟩)
          parent.actions set h))

/-- C8 counterexample: on the Scenario 1 tree (root `base`, class `one`
containing class `two` containing action `three`), `structure(true)`
yields exactly the paths `one`, `one.two`, `one.two..three` — there is no
entry for the root `base` itself, contradicting the claimed extra root
entry (the traversal only ever inserts entries for the root's descendants,
as the crate's own doctest shows). -/
theorem C8_cex_no_root_entry :
    (demo_cmdr.structure_set true).map StructureInfo.path =
      ["one", "one.two", "one.two..three"] ∧
    ((demo_cmdr.structure_set true).all fun si => !(si.path == "base"))
      = true :=
  ⟨rfl, rfl⟩

/-- C8 (amended): for the Scenario 1 tree, `structure(true)` yields
exactly the entries `one`, `one.two` and `one.two..three` (with no entry
for the root); in general the output is sorted strictly ascending by path
and is deterministic across repeated calls. -/
theorem C8_structure_sorted :
    (demo_cmdr.structure_set true =
      [⟨"one", ItemType.Class, ""⟩, ⟨"one.two", ItemType.Class, ""⟩,
        ⟨"one.two..three", ItemType.Action, ""⟩]) ∧
    (∀ (R : Type) (cmdr : Commander R) (from_root : Bool),
      List.Pairwise (fun a b => a.path < b.path)
        (cmdr.structure_set from_root)) ∧
    (∀ (R : Type) (cmdr : Commander R) (from_root : Bool),
      cmdr.structure_set from_root = cmdr.structure_set from_root) := by
  refine ⟨rfl, ?_, fun _ _ _ => rfl⟩
  intro R cmdr from_root
  unfold Commander.structure_set
  dsimp only
  apply structLoop_sorted
  exact foldl_insertInfo_sorted
    (fun a : Action R =>
      (⟨".." ++ a.name, ItemType.Action, a.help⟩ : StructureInfo))
    _ _ List.Pairwise.nil

/-- C9: with the empty line, `tree_completions` keeps every item produced
by `create_tree_completion_items` and pairs each with its full completion
string unchanged: the suffix returned for the empty last word is the whole
candidate. -/
theorem C9_tree_completions_identity {R : Type} :
    ∀ cmdr : Commander R,
    tree_completions "" (create_tree_completion_items cmdr) =
      (create_tree_completion_items cmdr).map fun x => (x.completestr, x) := by
  intro cmdr
  unfold tree_completions
  rw [show List.filter (fun x => starts_with x.completestr "")
      (create_tree_completion_items cmdr) =
      create_tree_completion_items cmdr
    from List.filter_eq_self.mpr (fun x _ => starts_with_empty x.completestr)]
  apply List.map_congr_left
  intro x hx
  have hz : word_break_start "" [' '] = 0 := rfl
  dsimp only
  rw [hz, List.drop_zero, string_mk_toList]

end Cmdtree

namespace Cmdtree

theorem C7_witness :
    parse_line demo_cmdr "" =
      (demo_cmdr, [unrecognized_msg ""], LineResult.Unrecognized) :=
  C7_unrecognized_diagnostic.2 demo_cmdr rfl rfl

theorem size_pos {R : Type} (sc : SubClass R) : 0 < sc.size := by
  cases sc with
  | mk n h cs as =>
    simp only [SubClass.size]
    omega

theorem sizeClasses_append {R : Type} (l₁ l₂ : List (SubClass R)) :
    sizeClasses (l₁ ++ l₂) = sizeClasses l₁ + sizeClasses l₂ := by
  induction l₁ with
  | nil => simp [sizeClasses]
  | cons x xs ih =>
    rw [List.cons_append]
    simp only [sizeClasses]
    rw [ih]
    omega

theorem sizeClasses_reverse {R : Type} (l : List (SubClass R)) :
    sizeClasses l.reverse = sizeClasses l := by
  induction l with
  | nil => rfl
  | cons x xs ih =>
    rw [List.reverse_cons, sizeClasses_append, ih]
    simp only [sizeClasses]
    omega

theorem stack_size_append {R : Type} (l₁ l₂ : List (String × SubClass R)) :
    stack_size (l₁ ++ l₂) = stack_size l₁ + stack_size l₂ := by
  simp [stack_size, List.map_append, sizeClasses_append]

theorem stack_size_reverse {R : Type} (l : List (String × SubClass R)) :
    stack_size l.reverse = stack_size l := by
  simp [stack_size, List.map_reverse, sizeClasses_reverse]

theorem stack_size_cons {R : Type} (pp : String) (parent : SubClass R)
    (rest : List (String × SubClass R)) :
    stack_size ((pp, parent) :: rest) = parent.size + stack_size rest := by
  simp [stack_size, sizeClasses]

theorem stack_size_children {R : Type} (pp : String) (parent : SubClass R) :
    stack_size (parent.classes.map (fun c => (pp ++ "." ++ c.name, c))) =
      sizeClasses parent.classes := by
  unfold stack_size
  rw [List.map_map]
  have hf : (Prod.snd ∘ fun c : SubClass R => (pp ++ "." ++ c.name, c)) =
      fun c : SubClass R => c := rfl
  rw [hf, List.map_id']

/-- Fuel adequacy for the traversal loop: any fuel at least the total node
count of the stack yields the same result, so the fuel chosen by
`Commander.structure_set` makes the loop run exactly like the unbounded
`while let` loop of the source. -/
theorem structLoop_fuel_irrelevant {R : Type} :
    ∀ (f₁ f₂ : Nat) (stack : List (String × SubClass R))
      (set : List StructureInfo),
    stack_size stack ≤ f₁ → stack_size stack ≤ f₂ →
    structLoop f₁ stack set = structLoop f₂ stack set := by
  intro f₁
  induction f₁ with
  | zero =>
    intro f₂ stack set h1 h2
    cases stack with
    | nil => cases f₂ <;> simp only [structLoop]
    | cons top rest =>
      obtain ⟨pp, parent⟩ := top
      rw [stack_size_cons] at h1
      exact absurd h1 (by have := size_pos parent; omega)
  | succ n ih =>
    intro f₂ stack set h1 h2
    cases stack with
    | nil => cases f₂ <;> simp only [structLoop]
    | cons top rest =>
      obtain ⟨pp, parent⟩ := top
      cases f₂ with
      | zero =>
        rw [stack_size_cons] at h2
        exact absurd h2 (by have := size_pos parent; omega)
      | succ m =>
        simp only [structLoop]
        have hsz : stack_size
            ((parent.classes.map
              (fun c => (pp ++ "." ++ c.name, c))).reverse ++ rest) =
            sizeClasses parent.classes + stack_size rest := by
          rw [stack_size_append, stack_size_reverse, stack_size_children]
        have hp : parent.size = 1 + sizeClasses parent.classes := by
          cases parent
          simp [SubClass.size, SubClass.classes]
        rw [stack_size_cons] at h1 h2
        apply ih
        · omega
        · omega

end Cmdtree
